import Mathlib

/-!
Verification development for the proxy-estado scraper (`src/server.js`).

The JavaScript source is shallowly embedded: the DOM-querying layer of the
extraction engine is abstracted into a `PageData` structure holding, for each
strategy, exactly the raw text/href inputs that the corresponding
`document.querySelectorAll` calls would deliver; everything downstream of the
DOM queries (whitespace normalization, regex filters, merge order, object
semantics, the normalization layer, the cache and the HTTP handler logic,
the concurrency queue and the browser-recycling counter) is translated
function by function from the source.

JavaScript plain objects used as string→string maps are modelled as
insertion-ordered association lists with unique keys (`Record`), with
assignment keeping the position of an existing key and appending a new one,
exactly like JS object property order.
-/

namespace Scraper

/-! ## Character and string utilities (JS semantics) -/

/-- Whitespace characters recognised by the embedding: the ASCII whitespace
characters plus NBSP.  This models the JS `\s` class and `String.trim` for
the character set that can realistically occur in the scraped pages. -/
def isWs (c : Char) : Bool :=
  c == ' ' || c == '\t' || c == '\n' || c == '\r' || c == '\x0b' || c == '\x0c' || c == '\u00A0'

/-- Case-mapping table for `toLowerCase`: ASCII letters plus the Spanish
accented letters that occur in the page labels. -/
def loPairs : List (Char × Char) :=
  [('A','a'), ('B','b'), ('C','c'), ('D','d'), ('E','e'), ('F','f'), ('G','g'),
   ('H','h'), ('I','i'), ('J','j'), ('K','k'), ('L','l'), ('M','m'), ('N','n'),
   ('O','o'), ('P','p'), ('Q','q'), ('R','r'), ('S','s'), ('T','t'), ('U','u'),
   ('V','v'), ('W','w'), ('X','x'), ('Y','y'), ('Z','z'),
   ('Á','á'), ('É','é'), ('Í','í'), ('Ó','ó'), ('Ú','ú'), ('Ñ','ñ'), ('Ü','ü')]

/-- Case-mapping table for `toUpperCase` (inverse direction of `loPairs`). -/
def upPairs : List (Char × Char) :=
  [('a','A'), ('b','B'), ('c','C'), ('d','D'), ('e','E'), ('f','F'), ('g','G'),
   ('h','H'), ('i','I'), ('j','J'), ('k','K'), ('l','L'), ('m','M'), ('n','N'),
   ('o','O'), ('p','P'), ('q','Q'), ('r','R'), ('s','S'), ('t','T'), ('u','U'),
   ('v','V'), ('w','W'), ('x','X'), ('y','Y'), ('z','Z'),
   ('á','Á'), ('é','É'), ('í','Í'), ('ó','Ó'), ('ú','Ú'), ('ñ','Ñ'), ('ü','Ü')]

/-- JS `toLowerCase`, one character. -/
def jsToLower (c : Char) : Char :=
  (((loPairs.find? (fun p => p.1 == c)).map Prod.snd).getD c)

/-- JS `toUpperCase`, one character. -/
def jsToUpper (c : Char) : Char :=
  (((upPairs.find? (fun p => p.1 == c)).map Prod.snd).getD c)

/-- JS `s.toLowerCase()`. -/
def jsToLowerS (s : String) : String := String.mk (s.toList.map jsToLower)

/-- JS `s.toUpperCase()`. -/
def jsToUpperS (s : String) : String := String.mk (s.toList.map jsToUpper)

/-- JS `s.trim()` on a character list. -/
def jsTrimL (l : List Char) : List Char :=
  ((l.dropWhile isWs).reverse.dropWhile isWs).reverse

/-- JS `s.trim()`. -/
def jsTrim (s : String) : String := String.mk (jsTrimL s.toList)

/-- Splits a character list on whitespace, dropping empty pieces; the
accumulator holds the current word reversed. -/
def wsplitGo (cur : List Char) : List Char → List (List Char)
  | [] => if cur.isEmpty then [] else [cur.reverse]
  | c :: t =>
    if isWs c then
      (if cur.isEmpty then wsplitGo [] t else cur.reverse :: wsplitGo [] t)
    else wsplitGo (c :: cur) t

/-- Joins word lists with a separator. -/
def joinWith (sep : List Char) : List (List Char) → List Char
  | [] => []
  | [w] => w
  | w :: ws => w ++ sep ++ joinWith sep ws

/-- The source's `norm`: `String(s).replace(/\s+/g, ' ').trim()` — collapse
whitespace runs to single spaces and trim, i.e. join the whitespace-separated
words with single spaces (server.js line 153). -/
def normWs (s : String) : String := String.mk (joinWith [' '] (wsplitGo [] s.toList))

/-- JS `Array.join(sep)` on strings. -/
def joinStr (sep : String) (l : List String) : String :=
  String.mk (joinWith sep.toList (l.map String.toList))

/-- Substring test: does the second list occur contiguously in the first? -/
def containsSub (pat : List Char) : List Char → Bool
  | [] => pat.isEmpty
  | c :: t => pat.isPrefixOf (c :: t) || containsSub pat t

/-- JS `s.includes(pat)`. -/
def incl (s pat : String) : Bool := containsSub pat.toList s.toList

/-- Removes the first occurrence of `pat` as a contiguous sublist
(JS `String.replace(pat, '')` with a string pattern). -/
def rmGo (pat : List Char) : List Char → List Char
  | [] => []
  | c :: t => if pat.isPrefixOf (c :: t) then (c :: t).drop pat.length else c :: rmGo pat t

/-- JS `s.replace(pat, '')` with a plain-string pattern: removes the first
occurrence of `pat`, or leaves `s` unchanged when absent. -/
def removeFirst (s pat : String) : String := String.mk (rmGo pat.toList s.toList)

/-- The letter class `[A-Za-zÁÉÍÓÚÑáéíóúñ]` of the source's filters
(server.js line 159). -/
def isLetterES (c : Char) : Bool :=
  ('A' ≤ c && c ≤ 'Z') || ('a' ≤ c && c ≤ 'z') ||
  c == 'Á' || c == 'É' || c == 'Í' || c == 'Ó' || c == 'Ú' || c == 'Ñ' ||
  c == 'á' || c == 'é' || c == 'í' || c == 'ó' || c == 'ú' || c == 'ñ'

/-- JS `/[A-Za-zÁÉÍÓÚÑáéíóúñ]/.test(s)`. -/
def hasLetter (s : String) : Bool := s.toList.any isLetterES

def isDigit (c : Char) : Bool := '0' ≤ c && c ≤ '9'

/-- JS regex word character `[A-Za-z0-9_]` (accented letters are NOT word
characters for `\b`). -/
def isWordChar (c : Char) : Bool :=
  ('A' ≤ c && c ≤ 'Z') || ('a' ≤ c && c ≤ 'z') || isDigit c || c == '_'

/-- JS `/^\d{1,2}\/\d{1,2}\/\d{2,4}/.test(s)` (prefix match, server.js
line 160).  Because the digit groups are maximal runs followed by `/`, the
regex with backtracking matches exactly when the leading digit run has length
1–2 and is followed by `/`, then again, then a digit run of length ≥ 2. -/
def dateLike (s : String) : Bool :=
  let cs := s.toList
  let r1 := cs.takeWhile isDigit
  let t1 := cs.dropWhile isDigit
  (decide (1 ≤ r1.length) && decide (r1.length ≤ 2)) &&
  (match t1 with
   | '/' :: t2 =>
     let r2 := t2.takeWhile isDigit
     let t3 := t2.dropWhile isDigit
     (decide (1 ≤ r2.length) && decide (r2.length ≤ 2)) &&
     (match t3 with
      | '/' :: t4 => decide (2 ≤ (t4.takeWhile isDigit).length)
      | _ => false)
   | _ => false)

/-- JS `/^\d{1,2}:\d{2}$/.test(s)` (full match, server.js line 161). -/
def timeLike (s : String) : Bool :=
  let cs := s.toList
  let r1 := cs.takeWhile isDigit
  let t1 := cs.dropWhile isDigit
  (decide (1 ≤ r1.length) && decide (r1.length ≤ 2)) &&
  (match t1 with
   | ':' :: t2 => decide (t2.length = 2) && t2.all isDigit
   | _ => false)

/-! ## The colon-splitting regexes of strategies (b) and (d)

`/^(.+?):\s*(.+)$/` and `/^(.+?):\s+(.+)$/` with JS semantics: `.` does not
match line terminators, `(.+?)` is lazy (earliest viable colon wins), and the
whitespace run is greedy with backtracking.  `reTail post` computes the
`(.+)$` capture after `\s*` on the text following the colon, or `none` when
no backtracking choice succeeds. -/

/-- Characters matched by JS `.` (anything but line terminators). -/
def dotOk (c : Char) : Bool :=
  !(c == '\n' || c == '\r' || c == '\u2028' || c == '\u2029')

/-- The `\s*(.+)$` part applied to the text after the colon. -/
def reTail (post : List Char) : Option (List Char) :=
  let r := post.dropWhile isWs
  if r.isEmpty then
    match post.getLast? with
    | some c => if dotOk c then some [c] else none
    | none => none
  else if r.all dotOk then some r else none

/-- Scans for the first colon that yields a full match; `pre` holds the
characters before the current position, reversed.  `reqWs` selects the
`\s+` variant (strategy d) over the `\s*` variant (strategy b). -/
def reGo (reqWs : Bool) : List Char → List Char → Option (String × String)
  | _, [] => none
  | pre, c :: t =>
    if c == ':' && !pre.isEmpty && pre.all dotOk then
      match (if reqWs then
               match t with
               | w :: t2 => if isWs w then reTail t2 else none
               | [] => none
             else reTail t) with
      | some m2 => some (String.mk pre.reverse, String.mk m2)
      | none => reGo reqWs (c :: pre) t
    else reGo reqWs (c :: pre) t

/-- JS `s.match(/^(.+?):\s*(.+)$/)` (with `reqWs = false`) or
`s.match(/^(.+?):\s+(.+)$/)` (with `reqWs = true`), returning the two
captures. -/
def reMatchColon (reqWs : Bool) (s : String) : Option (String × String) :=
  reGo reqWs [] s.toList

/-! ## Records: JS plain objects as string→string maps -/

/-- A JS object used as a string→string map: insertion-ordered association
list. -/
abbrev Record := List (String × String)

/-- JS property read `r[k]` (first binding wins; keys are unique by
construction). -/
def recGet : Record → String → Option String
  | [], _ => none
  | (k, v) :: t, key => if k = key then some v else recGet t key

/-- JS property write `r[k] = v`: updates in place keeping insertion order,
or appends a new key at the end. -/
def recSet : Record → String → String → Record
  | [], key, val => [(key, val)]
  | (k, v) :: t, key, val =>
    if k = key then (k, val) :: t else (k, v) :: recSet t key val

/-- JS `delete r[k]`. -/
def recDel : Record → String → Record
  | [], _ => []
  | (k, v) :: t, key => if k = key then t else (k, v) :: recDel t key

/-- JS `Object.keys(r)` (insertion order). -/
def recKeys (r : Record) : List String := r.map Prod.fst

/-- JS truthiness of `r[k]` for a string-valued optional field. -/
def truthy (o : Option String) : Bool :=
  match o with
  | some s => !(s == "")
  | none => false

/-! ## The shared insertion helper `add` (server.js lines 154–163) -/

/-- The body of `add` after `const key = norm(k); const val = norm(v)`:
discard the pair when either side is empty, when the key has no letter, or
when the key is date- or time-shaped; otherwise store with ordinary
object-assignment semantics. -/
def addKV (out : Record) (key val : String) : Record :=
  if key = "" ∨ val = "" then out
  else if hasLetter key = false then out
  else if dateLike key = true then out
  else if timeLike key = true then out
  else recSet out key val

/-- The extraction engine's `add(k, v)`: whitespace-normalize both sides,
then filter and store. -/
def add (out : Record) (k v : String) : Record :=
  addKV out (normWs k) (normWs v)

/-! ## Page model

The DOM queries of `page.evaluate` (server.js lines 150–233) are abstracted
into the raw inputs each strategy reads; every computation applied to those
inputs is kept. -/

/-- One `.ant-descriptions-item`: label text, content text, and the `href`
of an embedded `a[href]` if any (strategy a). -/
structure AntItem where
  label : String
  content : String
  aHref : Option String
deriving DecidableEq, Repr

/-- One `p`/`li`/`div` node for strategy (d): the text of its first
`strong`/`b` descendant if any, its own `textContent`, and the `href` of its
first `a[href]` descendant if any. -/
structure PNode where
  strongText : Option String
  text : String
  aHref : Option String
deriving DecidableEq, Repr

/-- The inputs of the extraction engine, in document order:
step 0 reads every element's `textContent` together with the `href` of the
nearby `a[href]` the source would resolve for it; strategies a–d read their
respective element lists; step e reads the first maps-like link of the
document. -/
structure PageData where
  allElems : List (String × Option String)
  antItems : List AntItem
  tableRows : List (List String)
  dlPairs : List (String × String)
  pNodes : List PNode
  mapsHref : Option String
deriving DecidableEq, Repr

/-- JS `/^ubicación\b/i.test(text) || /\bubicación:/i.test(text)`
(server.js line 169). -/
def ubicRegexTest (text : String) : Bool :=
  let lt := (jsToLowerS text).toList
  let pat1 := "ubicación".toList
  let pat2 := "ubicación:".toList
  (pat1.isPrefixOf lt &&
    (match lt.drop pat1.length with
     | [] => true
     | c :: _ => !isWordChar c)) ||
  (pat2.isPrefixOf lt || occursAfterNonWord lt pat2)
where
  /-- an occurrence of `pat` immediately after a non-word character -/
  occursAfterNonWord : List Char → List Char → Bool
    | [], _ => false
    | c :: t, pat => (!isWordChar c && pat.isPrefixOf t) || occursAfterNonWord t pat

/-- Step 0 (server.js lines 166–173): for each element whose normalized text
mentions `ubicación` at a word boundary, store the resolved link target
directly under the fixed key `Ubicación` (bypassing `add`). -/
def strat0 (page : PageData) (out : Record) : Record :=
  page.allElems.foldl
    (fun out e =>
      let text := normWs e.1
      if text = "" then out
      else if ubicRegexTest text then
        match e.2 with
        | some h => if h = "" then out else recSet out "Ubicación" h
        | none => out
      else out)
    out

/-- Strategy a (server.js lines 176–185): Ant Design descriptions items;
for a `ubicación` label prefer the embedded link's `href` over the text. -/
def stratA (page : PageData) (out : Record) : Record :=
  page.antItems.foldl
    (fun out it =>
      if incl (jsToLowerS it.label) "ubicación" then
        add out it.label
          (match it.aHref with
           | some h => if h = "" then it.content else h
           | none => it.content)
      else add out it.label it.content)
    out

/-- Strategy b (server.js lines 188–197): each table row with at least two
non-empty normalized cells contributes the first cell as label and the rest
joined by `" | "` as value, unless the first cell itself embeds a
`label: value` pattern. -/
def stratB (page : PageData) (out : Record) : Record :=
  page.tableRows.foldl
    (fun out row =>
      let cells := (row.map normWs).filter (fun c => ¬(c = ""))
      match cells with
      | c0 :: rest =>
        if 2 ≤ cells.length then
          match reMatchColon false c0 with
          | some (m1, m2) => add out m1 m2
          | none => add out c0 (joinStr " | " rest)
        else out
      | [] => out)
    out

/-- Strategy c (server.js lines 200–203): definition lists, term/definition
pairs zipped positionally. -/
def stratC (page : PageData) (out : Record) : Record :=
  page.dlPairs.foldl (fun out p => add out p.1 p.2) out

/-- Strategy d (server.js lines 206–224): for nodes with a `strong`/`b`
label ending in a colon, the enclosing text minus the label is the value
(href preferred for `ubicación`); otherwise split the free text on
`/^(.+?):\s+(.+)$/` and accept only letter-bearing labels of length ≤ 60. -/
def stratD (page : PageData) (out : Record) : Record :=
  page.pNodes.foldl
    (fun out n =>
      match n.strongText with
      | some st =>
        let label := normWs st
        if label ≠ "" ∧ label.back = ':' then
          let key := label.dropRight 1
          let val0 := removeFirst (normWs n.text) label
          let val :=
            if incl (jsToLowerS key) "ubicación" then
              match n.aHref with
              | some h => if h = "" then val0 else h
              | none => val0
            else val0
          if val ≠ "" then add out key val else out
        else out
      | none =>
        let t := normWs n.text
        match reMatchColon true t with
        | some (m1, m2) =>
          if hasLetter m1 = true ∧ m1.length ≤ 60 then add out m1 m2 else out
        | none => out)
    out

/-- JS `/^https?:\/\//i.test(s)`. -/
def startsHttp (s : String) : Bool :=
  let l := (jsToLowerS s).toList
  "http://".toList.isPrefixOf l || "https://".toList.isPrefixOf l

/-- Step e (server.js lines 227–230): if `Ubicación` was captured as plain
text, replace it by the document's first maps-like link target. -/
def stratE (page : PageData) (out : Record) : Record :=
  match recGet out "Ubicación" with
  | some u =>
    if ¬(u = "") ∧ startsHttp u = false then
      match page.mapsHref with
      | some h => if h = "" then out else recSet out "Ubicación" h
      | none => out
    else out
  | none => out

/-- The whole `page.evaluate` extraction (server.js lines 150–233): the
strategies run in the fixed source order over one shared record. -/
def extract (page : PageData) : Record :=
  stratE page (stratD page (stratC page (stratB page (stratA page (strat0 page [])))))

/-! ## Normalization layer (server.js lines 235–244) -/

/-- Does a label contain both an `estado` and a `sello` token,
case-insensitively (server.js line 236)? -/
def matchesSello (k : String) : Bool :=
  incl (jsToLowerS k) "estado" && incl (jsToLowerS k) "sello"

/-- `Object.keys(datos).find(...)` of server.js line 236: the first key in
insertion order matching both tokens. -/
def findSello (r : Record) : Option String := (recKeys r).find? matchesSello

/-- Seal-status canonicalization (server.js lines 236–241): write the
trimmed upper-cased value under the fixed key `Estado Sello` and delete the
originating key when it differs. -/
def canonSello (r : Record) : Record :=
  match findSello r with
  | some k =>
    let valor := jsToUpperS (jsTrim ((recGet r k).getD ""))
    let r1 := recSet r "Estado Sello" valor
    if k ≠ "Estado Sello" then recDel r1 k else r1
  | none => r

/-- Patente back-fill (server.js line 244): `if (!datos['Patente'])
datos['Patente'] = patente`. -/
def backfillPatente (patente : String) (r : Record) : Record :=
  if truthy (recGet r "Patente") then r else recSet r "Patente" patente

/-- The pure content of one `runScrape` task after the page has loaded:
extraction followed by the normalization layer (server.js lines 150–252). -/
def runScrapePure (patente : String) (page : PageData) : Record :=
  backfillPatente patente (canonSello (extract page))

/-! ## Cache and the `/api/estado` handler (server.js lines 21–22, 302–324) -/

/-- One cache entry `{ t, data }`. -/
structure CacheEntry where
  t : Nat
  data : Record
deriving DecidableEq, Repr

/-- The in-memory `Map` keyed by normalized patente. -/
abbrev Cache := List (String × CacheEntry)

/-- JS `Map.get`. -/
def cacheGet : Cache → String → Option CacheEntry
  | [], _ => none
  | (k, e) :: t, key => if k = key then some e else cacheGet t key

/-- JS `Map.set`: replaces in place or appends. -/
def cacheSet : Cache → String → CacheEntry → Cache
  | [], key, e => [(key, e)]
  | (k, e0) :: t, key, e =>
    if k = key then (k, e) :: t else (k, e0) :: cacheSet t key e

/-- The spec's `putCached`: the handler's cache write
`cache.set(patente, { t: Date.now(), data })` (server.js line 318). -/
def putCached (c : Cache) (id : String) (now : Nat) (r : Record) : Cache :=
  cacheSet c id ⟨now, r⟩

/-- The spec's `getCached`: the handler's cache read with its freshness
judgment `Date.now() - hit.t < CACHE_TTL_MS` (server.js lines 308–311). -/
def getCached (ttl : Nat) (c : Cache) (id : String) (now : Nat) : Option Record :=
  match cacheGet c id with
  | some hit => if now - hit.t < ttl then some hit.data else none
  | none => none

/-- The identifier normalization of the handler (server.js line 303):
`String(req.query.patente || '').toUpperCase().trim()`.  `runScrape` fills
the automation input with this exact string (server.js line 125), so this is
the value typed into the page's input field. -/
def automationInput (raw : String) : String := jsTrim (jsToUpperS raw)

/-- An HTTP response of the handler together with the cache afterwards and
whether a scrape ran. -/
structure HandlerResult where
  status : Nat
  body : Record
  cache : Cache
  scraped : Bool
deriving DecidableEq, Repr

/-- The scrape-and-respond tail of the handler (server.js lines 313–323).
`nav` is the outcome of navigation: a loaded page, or the error message of a
failed automation step (the `catch` branch). -/
def scrapeBranch (patente : String) (nav : Except String PageData) (c : Cache)
    (now : Nat) : HandlerResult :=
  match nav with
  | .error e => ⟨500, [("error", "Fallo de scraping"), ("detalle", e)], c, true⟩
  | .ok page =>
    let data := runScrapePure patente page
    if data.isEmpty then
      ⟨200, [("Patente", patente), ("mensaje", "Sin datos detectados. Ajustar selectores.")], c, true⟩
    else
      ⟨200, data, cacheSet c patente ⟨now, data⟩, true⟩

/-- The `/api/estado` handler (server.js lines 302–324): normalize the
identifier, reject it when empty, short-circuit on a fresh cache hit, and
otherwise scrape. -/
def apiEstado (ttl : Nat) (raw : String) (nav : Except String PageData)
    (c : Cache) (now : Nat) : HandlerResult :=
  let patente := automationInput raw
  if patente = "" then ⟨400, [("error", "Patente requerida")], c, false⟩
  else
    match cacheGet c patente with
    | some hit =>
      if now - hit.t < ttl then ⟨200, hit.data, c, false⟩
      else scrapeBranch patente nav c now
    | none => scrapeBranch patente nav c now

/-! ## Concurrency queue (server.js lines 74–90)

`enqueue` pushes a task and calls `runNext`; `runNext` dispatches at most one
task when `active < CONCURRENCY`; a finished task (resolved or rejected)
decrements `active` and calls `runNext` again.  Tasks are identified by
numbers; the state tracks the pending FIFO, the identities of active tasks,
the settled promises with their outcome, and the submission/dispatch
histories. -/

structure QState where
  pending : List Nat
  activeT : List Nat
  settled : List (Nat × Bool)
  submitted : List Nat
  dispatched : List Nat
deriving DecidableEq, Repr

/-- The initial queue: empty FIFO, `active = 0`. -/
def qInit : QState := ⟨[], [], [], [], []⟩

/-- `runNext` (server.js lines 82–90): return unless `active < CONCURRENCY`
and the queue is non-empty; otherwise shift the head and start it. -/
def runNextQ (N : Nat) (s : QState) : QState :=
  if N ≤ s.activeT.length then s
  else
    match s.pending with
    | [] => s
    | t :: rest =>
      { s with pending := rest, activeT := s.activeT ++ [t],
               dispatched := s.dispatched ++ [t] }

/-- `enqueue` (server.js lines 76–81): append the task and call `runNext`. -/
def submitQ (N : Nat) (s : QState) (id : Nat) : QState :=
  runNextQ N { s with pending := s.pending ++ [id], submitted := s.submitted ++ [id] }

/-- Completion of a running task with outcome `ok` (the
`.then(resolve).catch(reject).finally(...)` of server.js lines 86–89):
the task's own promise settles with its outcome, `active` is decremented,
and `runNext` runs again — identically for success and failure. -/
def finishQ (N : Nat) (s : QState) (id : Nat) (ok : Bool) : QState :=
  runNextQ N { s with activeT := s.activeT.erase id, settled := s.settled ++ [(id, ok)] }

/-- The states the queue can reach from start-up: any interleaving of
submissions and completions of active tasks. -/
inductive QReach (N : Nat) : QState → Prop
  | init : QReach N qInit
  | submit {s : QState} (id : Nat) : QReach N s → QReach N (submitQ N s id)
  | finish {s : QState} (id : Nat) (ok : Bool) :
      QReach N s → id ∈ s.activeT → QReach N (finishQ N s id ok)

/-- A finite sequence of task completions (no further submissions). -/
inductive FinSeq (N : Nat) : QState → QState → Prop
  | refl (s : QState) : FinSeq N s s
  | step {s s' : QState} (id : Nat) (ok : Bool) :
      id ∈ s.activeT → FinSeq N (finishQ N s id ok) s' → FinSeq N s s'

/-! ## Session lifecycle manager (server.js lines 46–71)

Browsers are given successive identities so that a relaunch is observable;
`getBrowser` lazily launches, `maybeRecycleBrowser` counts completed tasks
and closes the shared browser at the threshold. -/

structure BrowserState where
  sharedBrowser : Option Nat
  useCount : Nat
  nextId : Nat
deriving DecidableEq, Repr

/-- Start-up state: `sharedBrowser = null`, `useCount = 0`. -/
def browserInit : BrowserState := ⟨none, 0, 0⟩

/-- `getBrowser` (server.js lines 49–62): launch when unlaunched (resetting
the counter) and return the shared browser's identity. -/
def getBrowser (s : BrowserState) : Nat × BrowserState :=
  match s.sharedBrowser with
  | some b => (b, s)
  | none => (s.nextId, ⟨some s.nextId, 0, s.nextId + 1⟩)

/-- `maybeRecycleBrowser` (server.js lines 64–71): increment the usage
counter; at `useCount >= RESTART_EVERY`, close the browser, null the handle
and reset the counter. -/
def maybeRecycleBrowser (restartEvery : Nat) (s : BrowserState) : BrowserState :=
  let c := s.useCount + 1
  if restartEvery ≤ c then { s with sharedBrowser := none, useCount := 0 }
  else { s with useCount := c }

/-- One queued task as the session manager sees it: acquire the browser,
then (in the task's `finally`) run the recycle check.  Returns the session
identity the task used. -/
def runTask (restartEvery : Nat) (s : BrowserState) : Nat × BrowserState :=
  let p := getBrowser s
  (p.1, maybeRecycleBrowser restartEvery p.2)

/-- The manager's state after `n` completed tasks from start-up. -/
def stateAfter (restartEvery : Nat) : Nat → BrowserState
  | 0 => browserInit
  | n + 1 => (runTask restartEvery (stateAfter restartEvery n)).2

/-- The session identity used by task `n` (0-indexed). -/
def sessionOfTask (restartEvery n : Nat) : Nat :=
  (runTask restartEvery (stateAfter restartEvery n)).1

/-! ## Predicates used by the claims -/

/-- A label the `add` filters accept: it has a letter and is neither
date-shaped nor time-shaped. -/
def GoodL (k : String) : Prop :=
  hasLetter k = true ∧ dateLike k = false ∧ timeLike k = false

/-- Every key of the record is an acceptable label. -/
def GoodRec (r : Record) : Prop := ∀ k ∈ recKeys r, GoodL k

/-- Every key matching the seal-status tokens is already the canonical
label. -/
def canonKeysOk (r : Record) : Bool :=
  (recKeys r).all (fun k => !matchesSello k || k == "Estado Sello")

/-- The canonical label's value, when present, is fixed by
trim-then-uppercase. -/
def canonValOk (r : Record) : Bool :=
  match recGet r "Estado Sello" with
  | some v => jsToUpperS (jsTrim v) == v
  | none => true

/-- A record on which the seal-status canonicalization has nothing to do. -/
def IsCanonicalSello (r : Record) : Prop :=
  canonKeysOk r = true ∧ canonValOk r = true

/-! ## Concrete pages used by counterexamples and witnesses -/

/-- A results page whose only content is a table row
`["Estado Sello", "bloqueado"]`. -/
def selloPage : PageData := ⟨[], [], [["Estado Sello", "bloqueado"]], [], [], none⟩

/-- A page where a table gives `Estado: ok` and a free-text paragraph later
says `Estado: mal`. -/
def overwritePage : PageData :=
  ⟨[], [], [["Estado", "ok"]], [], [⟨none, "Estado: mal", none⟩], none⟩

/-- A page from which no strategy extracts anything. -/
def emptyPage : PageData := ⟨[], [], [], [], [], none⟩

/-! ## Record lemmas -/

theorem recGet_recSet_self (r : Record) (k v : String) :
    recGet (recSet r k v) k = some v := by
  induction r with
  | nil => simp [recSet, recGet]
  | cons p t ih =>
    obtain ⟨a, b⟩ := p
    by_cases h : a = k
    · simp [recSet, recGet, h]
    · simp [recSet, recGet, h, ih]

theorem mem_recSet {r : Record} {k v : String} {p : String × String}
    (hp : p ∈ recSet r k v) : p ∈ r ∨ p = (k, v) := by
  induction r with
  | nil => simp [recSet] at hp; right; exact hp
  | cons q t ih =>
    obtain ⟨a, b⟩ := q
    by_cases h : a = k
    · subst h
      simp only [recSet, if_pos rfl] at hp
      rcases List.mem_cons.mp hp with h1 | h1
      · right; exact h1
      · left; exact List.mem_cons_of_mem _ h1
    · simp only [recSet, if_neg h] at hp
      rcases List.mem_cons.mp hp with h1 | h1
      · left; exact h1 ▸ List.mem_cons_self _ _
      · rcases ih h1 with h2 | h2
        · left; exact List.mem_cons_of_mem _ h2
        · right; exact h2

theorem mem_recKeys_recSet {r : Record} {k v key : String}
    (h : key ∈ recKeys (recSet r k v)) : key ∈ recKeys r ∨ key = k := by
  rcases List.mem_map.mp h with ⟨p, hp, hpk⟩
  rcases mem_recSet hp with h1 | h1
  · left; exact hpk ▸ List.mem_map_of_mem _ h1
  · right; rw [← hpk, h1]

theorem mem_recKeys_recDel {r : Record} {k key : String}
    (h : key ∈ recKeys (recDel r k)) : key ∈ recKeys r := by
  induction r with
  | nil => simp [recDel, recKeys] at h
  | cons q t ih =>
    obtain ⟨a, b⟩ := q
    by_cases hk : a = k
    · simp only [recDel, if_pos hk] at h
      exact List.mem_cons_of_mem _ h
    · simp only [recDel, if_neg hk, recKeys, List.map_cons] at h ⊢
      rcases List.mem_cons.mp h with h1 | h1
      · exact List.mem_cons.mpr (Or.inl h1)
      · exact List.mem_cons.mpr (Or.inr (ih h1))

theorem recGet_recDel_ne {r : Record} {k key : String} (h : key ≠ k) :
    recGet (recDel r k) key = recGet r key := by
  induction r with
  | nil => simp [recDel]
  | cons q t ih =>
    obtain ⟨a, b⟩ := q
    by_cases hk : a = k
    · subst hk
      have : ¬a = key := fun hh => h (hh ▸ rfl)
      simp [recDel, recGet, this]
    · by_cases hky : a = key
      · subst hky
        simp [recDel, recGet, hk]
      · simp [recDel, recGet, hk, hky, ih]

theorem recGet_eq_none_of_not_mem {r : Record} {k : String}
    (h : k ∉ recKeys r) : recGet r k = none := by
  induction r with
  | nil => simp [recGet]
  | cons q t ih =>
    obtain ⟨a, b⟩ := q
    simp only [recKeys, List.map_cons, List.mem_cons, not_or] at h
    have ha : ¬a = k := fun hh => h.1 hh.symm
    simp [recGet, ha, ih h.2]

theorem recGet_isSome_of_mem {r : Record} {k : String}
    (h : k ∈ recKeys r) : ∃ v, recGet r k = some v := by
  induction r with
  | nil => simp [recKeys] at h
  | cons q t ih =>
    obtain ⟨a, b⟩ := q
    by_cases ha : a = k
    · exact ⟨b, by simp [recGet, ha]⟩
    · simp only [recKeys, List.map_cons, List.mem_cons] at h
      rcases h with h1 | h1
      · exact absurd h1.symm ha
      · obtain ⟨v, hv⟩ := ih h1
        exact ⟨v, by simp [recGet, ha, hv]⟩

theorem recKeys_recSet (r : Record) (k v : String) :
    recKeys (recSet r k v) =
      if k ∈ recKeys r then recKeys r else recKeys r ++ [k] := by
  induction r with
  | nil => simp [recSet, recKeys]
  | cons q t ih =>
    obtain ⟨a, b⟩ := q
    by_cases h : a = k
    · simp [recSet, recKeys, h]
    · have hne : ¬k = a := fun hh => h hh.symm
      simp only [recSet, if_neg h, recKeys, List.map_cons] at *
      by_cases hm : k ∈ List.map Prod.fst t
      · rw [if_pos hm] at ih
        rw [ih, if_pos (List.mem_cons.mpr (Or.inr hm))]
      · rw [if_neg hm] at ih
        rw [ih, if_neg (by simp [List.mem_cons, hne, hm]), List.cons_append]

theorem recGet_recDel_self {r : Record} {k : String}
    (hnd : (recKeys r).Nodup) : recGet (recDel r k) k = none := by
  induction r with
  | nil => simp [recDel, recGet]
  | cons q t ih =>
    obtain ⟨a, b⟩ := q
    simp only [recKeys, List.map_cons, List.nodup_cons] at hnd
    by_cases h : a = k
    · subst h
      simp only [recDel, if_pos rfl]
      exact recGet_eq_none_of_not_mem hnd.1
    · simp [recDel, recGet, h, ih hnd.2]

theorem recSet_self {r : Record} {k v : String}
    (h : recGet r k = some v) : recSet r k v = r := by
  induction r with
  | nil => simp [recGet] at h
  | cons q t ih =>
    obtain ⟨a, b⟩ := q
    by_cases ha : a = k
    · subst ha
      have hb : b = v := by simpa [recGet] using h
      simp [recSet, hb]
    · simp only [recGet, if_neg ha] at h
      simp [recSet, ha, ih h]

/-! ## Label-quality preservation -/

theorem goodRec_nil : GoodRec [] := by
  intro k hk
  simp [recKeys] at hk

theorem goodRec_recSet {r : Record} {k v : String}
    (hr : GoodRec r) (hk : GoodL k) : GoodRec (recSet r k v) := by
  intro key hkey
  rcases mem_recKeys_recSet hkey with h | h
  · exact hr key h
  · exact h ▸ hk

theorem goodRec_recDel {r : Record} {k : String} (hr : GoodRec r) :
    GoodRec (recDel r k) := fun key hkey => hr key (mem_recKeys_recDel hkey)

theorem goodRec_addKV {r : Record} {key val : String} (hr : GoodRec r) :
    GoodRec (addKV r key val) := by
  unfold addKV
  split
  · exact hr
  · split
    · exact hr
    · split
      · exact hr
      · split
        · exact hr
        · rename_i h1 h2 h3 h4
          exact goodRec_recSet hr
            ⟨Bool.not_eq_false _ ▸ h2, Bool.not_eq_true _ ▸ h3, Bool.not_eq_true _ ▸ h4⟩

theorem goodRec_add {r : Record} {k v : String} (hr : GoodRec r) :
    GoodRec (add r k v) := goodRec_addKV hr

theorem goodRec_foldl {α : Type} (f : Record → α → Record)
    (hf : ∀ r a, GoodRec r → GoodRec (f r a)) :
    ∀ (l : List α) (r : Record), GoodRec r → GoodRec (List.foldl f r l) := by
  intro l
  induction l with
  | nil => intro r h; exact h
  | cons a t ih => intro r h; exact ih (f r a) (hf r a h)

theorem goodL_Ubicacion : GoodL "Ubicación" := by
  refine ⟨by decide, by decide, by decide⟩

theorem goodL_EstadoSello : GoodL "Estado Sello" := by
  refine ⟨by decide, by decide, by decide⟩

theorem goodL_Patente : GoodL "Patente" := by
  refine ⟨by decide, by decide, by decide⟩

theorem goodRec_strat0 {page : PageData} {r : Record} (hr : GoodRec r) :
    GoodRec (strat0 page r) := by
  refine goodRec_foldl _ (fun out e h => ?_) page.allElems r hr
  dsimp only
  split
  · exact h
  · split
    · split
      · split
        · exact h
        · exact goodRec_recSet h goodL_Ubicacion
      · exact h
    · exact h

theorem goodRec_stratA {page : PageData} {r : Record} (hr : GoodRec r) :
    GoodRec (stratA page r) := by
  refine goodRec_foldl _ (fun out it h => ?_) page.antItems r hr
  dsimp only
  split
  · exact goodRec_add h
  · exact goodRec_add h

theorem goodRec_stratB {page : PageData} {r : Record} (hr : GoodRec r) :
    GoodRec (stratB page r) := by
  refine goodRec_foldl _ (fun out row h => ?_) page.tableRows r hr
  dsimp only
  split
  · split
    · split
      · exact goodRec_add h
      · exact goodRec_add h
    · exact h
  · exact h

theorem goodRec_stratC {page : PageData} {r : Record} (hr : GoodRec r) :
    GoodRec (stratC page r) := by
  refine goodRec_foldl _ (fun out p h => ?_) page.dlPairs r hr
  exact goodRec_add h

theorem goodRec_stratD {page : PageData} {r : Record} (hr : GoodRec r) :
    GoodRec (stratD page r) := by
  refine goodRec_foldl _ (fun out n h => ?_) page.pNodes r hr
  dsimp only
  repeat' split
  all_goals first | exact goodRec_add h | exact h

theorem goodRec_stratE {page : PageData} {r : Record} (hr : GoodRec r) :
    GoodRec (stratE page r) := by
  unfold stratE
  split
  · split
    · split
      · split
        · exact hr
        · exact goodRec_recSet hr goodL_Ubicacion
      · exact hr
    · exact hr
  · exact hr

theorem goodRec_extract (page : PageData) : GoodRec (extract page) :=
  goodRec_stratE (goodRec_stratD (goodRec_stratC (goodRec_stratB
    (goodRec_stratA (goodRec_strat0 goodRec_nil)))))

theorem goodRec_canonSello {r : Record} (hr : GoodRec r) :
    GoodRec (canonSello r) := by
  unfold canonSello
  split
  · split
    · exact goodRec_recDel (goodRec_recSet hr goodL_EstadoSello)
    · exact goodRec_recSet hr goodL_EstadoSello
  · exact hr

theorem goodRec_backfill {r : Record} {patente : String} (hr : GoodRec r) :
    GoodRec (backfillPatente patente r) := by
  unfold backfillPatente
  split
  · exact hr
  · exact goodRec_recSet hr goodL_Patente

theorem cacheGet_cacheSet_self (c : Cache) (id : String) (e : CacheEntry) :
    cacheGet (cacheSet c id e) id = some e := by
  induction c with
  | nil => simp [cacheSet, cacheGet]
  | cons p t ih =>
    obtain ⟨a, b⟩ := p
    by_cases h : a = id
    · simp [cacheSet, cacheGet, h]
    · simp [cacheSet, cacheGet, h, ih]

/-! ## Claim C10 -/

/-- Claim C10: every pair inserted through the shared `add` helper has a
non-empty label and a non-empty value after whitespace normalization; a
candidate whose normalized label or value is empty is silently discarded, so
`add` never makes a field map to the empty string. -/
theorem C10_add_nonempty (out : Record) (k v : String) :
    ((normWs k = "" ∨ normWs v = "") → add out k v = out) ∧
    ((∀ p ∈ out, p.1 ≠ "" ∧ p.2 ≠ "") →
      ∀ p ∈ add out k v, p.1 ≠ "" ∧ p.2 ≠ "") := by
  constructor
  · intro h
    unfold add addKV
    rw [if_pos h]
  · intro hout p hp
    unfold add addKV at hp
    split at hp
    · exact hout p hp
    · split at hp
      · exact hout p hp
      · split at hp
        · exact hout p hp
        · split at hp
          · exact hout p hp
          · rename_i h1 h2 h3 h4
            rcases mem_recSet hp with h | h
            · exact hout p h
            · push_neg at h1
              subst h
              exact ⟨h1.1, h1.2⟩

/-- Witness for C10 at concrete inputs: a whitespace-only key is discarded,
and an accepted pair is non-empty on both sides. -/
theorem C10_witness :
    add [("A", "b")] " " "x" = [("A", "b")] ∧
      (("Campo", "v") : String × String).1 ≠ "" ∧
      (("Campo", "v") : String × String).2 ≠ "" :=
  ⟨(C10_add_nonempty [("A", "b")] " " "x").1 (by decide),
   (C10_add_nonempty [("A", "b")] "Campo" "v").2 (by decide) ("Campo", "v") (by decide)⟩

/-! ## Claim C8 -/

/-- Claim C8: no label of a final scraped record is date-shaped
(`/^\d{1,2}\/\d{1,2}\/\d{2,4}/`), time-shaped (`/^\d{1,2}:\d{2}$/`), or
letter-free: the `add` filters discard such candidates in every strategy, and
the labels written directly (`Ubicación`, `Estado Sello`, `Patente`) satisfy
the same property. -/
theorem C8_no_datelike_labels (patente : String) (page : PageData) :
    ∀ k ∈ recKeys (runScrapePure patente page),
      hasLetter k = true ∧ dateLike k = false ∧ timeLike k = false :=
  goodRec_backfill (goodRec_canonSello (goodRec_extract page))

/-- Witness for C8: the concrete seal-status page yields the label
`Estado Sello`, which has a letter and is neither date- nor time-shaped. -/
theorem C8_witness :
    "Estado Sello" ∈ recKeys (runScrapePure "AB12CD" selloPage) ∧
      (hasLetter "Estado Sello" = true ∧ dateLike "Estado Sello" = false ∧
        timeLike "Estado Sello" = false) :=
  ⟨by decide, C8_no_datelike_labels "AB12CD" selloPage "Estado Sello" (by decide)⟩

/-! ## Claim C2 -/

/-- Claim C2 is false on the code: the free-text fallback (strategy d) does
run after the structural strategies, but it inserts through the shared `add`
helper, which assigns unconditionally.  On `overwritePage` the structural
pass stores `Estado ↦ ok`, and the free-text pass then replaces it with
`mal`. -/
theorem C2_counterexample :
    stratC overwritePage (stratB overwritePage (stratA overwritePage
        (strat0 overwritePage []))) = [("Estado", "ok")] ∧
      extract overwritePage = [("Estado", "mal")] :=
  ⟨by decide, by decide⟩

/-- Claim C2 (amended): the free-text fallback runs after the structural
strategies, but it inserts via the shared `add` helper with standard
overwrite semantics — a label it produces replaces any value an earlier
strategy stored under that label. -/
theorem C2_amended_overwrite :
    (∀ page, extract page =
        stratE page (stratD page (stratC page (stratB page (stratA page
          (strat0 page [])))))) ∧
    ∀ (out : Record) (k v : String),
      ¬(normWs k = "" ∨ normWs v = "") → hasLetter (normWs k) = true →
      dateLike (normWs k) = false → timeLike (normWs k) = false →
      recGet (add out k v) (normWs k) = some (normWs v) := by
  refine ⟨fun page => rfl, fun out k v h1 h2 h3 h4 => ?_⟩
  unfold add addKV
  rw [if_neg h1, if_neg (by simp [h2]), if_neg (by simp [h3]), if_neg (by simp [h4])]
  exact recGet_recSet_self out (normWs k) (normWs v)

/-- Witness for the amended C2: `add` overwrites an existing binding. -/
theorem C2_witness :
    recGet (add [("Estado", "ok")] "Estado" "mal") (normWs "Estado") =
      some (normWs "mal") :=
  C2_amended_overwrite.2 [("Estado", "ok")] "Estado" "mal"
    (by decide) (by decide) (by decide) (by decide)

/-! ## Claim C1 -/

/-- Claim C1 is false on the code: the extraction and normalization compute
no AlertSet and attach no alerts field.  On a page whose seal status is
`bloqueado` — not the known active token, so by the claim a business alert
rule should fire and a non-empty AlertSet should be attached under a
reserved field — the final record consists of exactly the two ordinary
fields `Estado Sello` and `Patente`, so no alert field of any name is
present. -/
theorem C1_counterexample :
    runScrapePure "AB12CD" selloPage =
        [("Estado Sello", "BLOQUEADO"), ("Patente", "AB12CD")] ∧
      recKeys (runScrapePure "AB12CD" selloPage) = ["Estado Sello", "Patente"] :=
  ⟨by decide, by decide⟩

/-- Claim C1 (amended): no alerts are computed; every label of the returned
record either comes from the extraction engine or is one of the two fixed
normalization labels `Estado Sello` (canonicalization) and `Patente`
(back-fill) — in particular no reserved alerts field is ever attached. -/
theorem C1_amended_no_alerts (patente : String) (page : PageData) :
    ∀ k ∈ recKeys (runScrapePure patente page),
      k ∈ recKeys (extract page) ∨ k = "Estado Sello" ∨ k = "Patente" := by
  intro k hk
  have hcanon : ∀ key, key ∈ recKeys (canonSello (extract page)) →
      key ∈ recKeys (extract page) ∨ key = "Estado Sello" := by
    intro key hkey
    revert hkey
    unfold canonSello
    split
    · split
      · intro hkey
        rcases mem_recKeys_recSet (mem_recKeys_recDel hkey) with h | h
        · exact Or.inl h
        · exact Or.inr h
      · intro hkey
        rcases mem_recKeys_recSet hkey with h | h
        · exact Or.inl h
        · exact Or.inr h
    · intro hkey
      exact Or.inl hkey
  unfold runScrapePure backfillPatente at hk
  split at hk
  · rcases hcanon k hk with h | h
    · exact Or.inl h
    · exact Or.inr (Or.inl h)
  · rcases mem_recKeys_recSet hk with h | h
    · rcases hcanon k h with h1 | h1
      · exact Or.inl h1
      · exact Or.inr (Or.inl h1)
    · exact Or.inr (Or.inr h)

/-- Witness for the amended C1 on the concrete seal-status page. -/
theorem C1_witness :
    "Patente" ∈ recKeys (runScrapePure "AB12CD" selloPage) ∧
      ("Patente" ∈ recKeys (extract selloPage) ∨ "Patente" = "Estado Sello" ∨
        "Patente" = "Patente") :=
  ⟨by decide, C1_amended_no_alerts "AB12CD" selloPage "Patente" (by decide)⟩

/-! ## Claim C3 -/

/-- Claim C3 is false on the code: when the extraction engine yields an
empty FieldRecord, the Patente back-fill makes the record non-empty before
the handler's emptiness check, so the handler's dedicated `mensaje`
("no data") branch never fires; the caller receives 200 with only the
back-filled identifier and no `mensaje` field. -/
theorem C3_counterexample :
    extract emptyPage = [] ∧
      apiEstado 600000 "ab12cd" (Except.ok emptyPage) [] 5 =
        ⟨200, [("Patente", "AB12CD")],
          [("AB12CD", ⟨5, [("Patente", "AB12CD")]⟩)], true⟩ ∧
      recGet (apiEstado 600000 "ab12cd" (Except.ok emptyPage) [] 5).body
        "mensaje" = none :=
  ⟨by decide, by decide, by decide⟩

/-- Claim C3 (amended): a scrape that runs to completion with an empty
extraction yields a successful 200 response whose body carries only the
back-filled identifier field; no "no data" indicator is attached, because
the back-fill makes the record non-empty before the emptiness check. -/
theorem C3_amended_empty_extraction (patente : String) (page : PageData)
    (c : Cache) (now : Nat) (h : extract page = []) :
    runScrapePure patente page = [("Patente", patente)] ∧
      scrapeBranch patente (Except.ok page) c now =
        ⟨200, [("Patente", patente)],
          cacheSet c patente ⟨now, [("Patente", patente)]⟩, true⟩ := by
  have h1 : runScrapePure patente page = [("Patente", patente)] := by
    unfold runScrapePure
    rw [h]
    simp [canonSello, findSello, recKeys, backfillPatente, truthy, recGet, recSet]
  refine ⟨h1, ?_⟩
  simp [scrapeBranch, h1]

/-- Witness for the amended C3 at a concrete empty page. -/
theorem C3_witness :
    runScrapePure "XY1234" emptyPage = [("Patente", "XY1234")] ∧
      scrapeBranch "XY1234" (Except.ok emptyPage) [] 7 =
        ⟨200, [("Patente", "XY1234")],
          cacheSet [] "XY1234" ⟨7, [("Patente", "XY1234")]⟩, true⟩ :=
  C3_amended_empty_extraction "XY1234" emptyPage [] 7 (by decide)

/-! ## Claim C5 -/

/-- Claim C5: cache round-trip.  A `putCached` immediately followed by a
`getCached` within the TTL returns the stored record; once
`now - timestamp >= TTL` the entry is stale — the read misses, a fresh
scrape runs, its result is returned, and it overwrites the entry. -/
theorem C5_cache_roundtrip (ttl : Nat) :
    (∀ (c : Cache) (id : String) (t : Nat) (r : Record) (now : Nat),
        (now - t < ttl → getCached ttl (putCached c id t r) id now = some r) ∧
        (ttl ≤ now - t → getCached ttl (putCached c id t r) id now = none)) ∧
    (∀ (raw : String) (page : PageData) (c : Cache) (t : Nat) (d : Record)
        (now : Nat),
        automationInput raw ≠ "" →
        cacheGet c (automationInput raw) = some ⟨t, d⟩ →
        ttl ≤ now - t →
        runScrapePure (automationInput raw) page ≠ [] →
        apiEstado ttl raw (Except.ok page) c now =
          ⟨200, runScrapePure (automationInput raw) page,
            cacheSet c (automationInput raw)
              ⟨now, runScrapePure (automationInput raw) page⟩, true⟩) := by
  constructor
  · intro c id t r now
    constructor
    · intro h
      unfold getCached putCached
      rw [cacheGet_cacheSet_self]
      simp [h]
    · intro h
      have h2 : ¬(now - t < ttl) := by omega
      unfold getCached putCached
      rw [cacheGet_cacheSet_self]
      simp [h2]
  · intro raw page c t d now hne hget hstale hnonempty
    have hlt : ¬(now - t < ttl) := by omega
    have hfalse : (runScrapePure (automationInput raw) page).isEmpty = false := by
      cases hrec : runScrapePure (automationInput raw) page
      · exact absurd hrec hnonempty
      · rfl
    simp [apiEstado, scrapeBranch, hget, hne, hlt, hfalse]

/-- Witness for C5 at concrete times: a fresh hit, a stale miss, and a
stale entry overwritten by a fresh scrape. -/
theorem C5_witness :
    getCached 100 (putCached [] "AB12CD" 10 [("P", "Q")]) "AB12CD" 50 =
        some [("P", "Q")] ∧
      getCached 100 (putCached [] "AB12CD" 10 [("P", "Q")]) "AB12CD" 110 = none ∧
      apiEstado 100 "ab12cd" (Except.ok selloPage)
          [("AB12CD", ⟨10, [("old", "x")]⟩)] 110 =
        ⟨200, runScrapePure (automationInput "ab12cd") selloPage,
          cacheSet [("AB12CD", ⟨10, [("old", "x")]⟩)] (automationInput "ab12cd")
            ⟨110, runScrapePure (automationInput "ab12cd") selloPage⟩, true⟩ :=
  ⟨((C5_cache_roundtrip 100).1 [] "AB12CD" 10 [("P", "Q")] 50).1 (by decide),
   ((C5_cache_roundtrip 100).1 [] "AB12CD" 10 [("P", "Q")] 110).2 (by decide),
   (C5_cache_roundtrip 100).2 "ab12cd" selloPage
     [("AB12CD", ⟨10, [("old", "x")]⟩)] 10 [("old", "x")] 110
     (by decide) (by decide) (by decide) (by decide)⟩

/-! ## Claim C7 -/

theorem canonSello_eq_of_find {r : Record} {k : String}
    (hfind : findSello r = some k) :
    canonSello r =
      (if k ≠ "Estado Sello"
       then recDel (recSet r "Estado Sello"
         (jsToUpperS (jsTrim ((recGet r k).getD "")))) k
       else recSet r "Estado Sello"
         (jsToUpperS (jsTrim ((recGet r k).getD "")))) := by
  unfold canonSello
  rw [hfind]

/-- Claim C7: when some label contains both status and seal tokens
case-insensitively, the step maps the fixed canonical label to the
trimmed-then-upper-cased value of the first such label and removes that
label when non-canonical; and the step is a no-op on an already-canonical
record. -/
theorem C7_sello_canonical (r : Record) (k : String)
    (hnd : (recKeys r).Nodup) :
    (findSello r = some k →
        recGet (canonSello r) "Estado Sello" =
          some (jsToUpperS (jsTrim ((recGet r k).getD ""))) ∧
        (k ≠ "Estado Sello" → recGet (canonSello r) k = none)) ∧
    ((∃ k0 ∈ recKeys r, matchesSello k0 = true) → (findSello r).isSome = true) ∧
    (IsCanonicalSello r → canonSello r = r) := by
  refine ⟨?_, ?_, ?_⟩
  · intro hfind
    rw [canonSello_eq_of_find hfind]
    by_cases hkes : k = "Estado Sello"
    · rw [if_neg (by simp [hkes])]
      subst hkes
      exact ⟨recGet_recSet_self r _ _, fun hcon => absurd rfl hcon⟩
    · rw [if_pos hkes]
      constructor
      · rw [recGet_recDel_ne (Ne.symm hkes)]
        exact recGet_recSet_self r _ _
      · intro _
        apply recGet_recDel_self
        rw [recKeys_recSet]
        by_cases hmem : "Estado Sello" ∈ recKeys r
        · rw [if_pos hmem]; exact hnd
        · rw [if_neg hmem, List.nodup_append]
          refine ⟨hnd, List.nodup_singleton _, ?_⟩
          intro x hx hx2
          simp only [List.mem_singleton] at hx2
          subst hx2
          exact hmem hx
  · rintro ⟨k0, hk0, hm⟩
    cases hf : findSello r with
    | some k1 => rfl
    | none =>
      unfold findSello at hf
      have := List.find?_eq_none.mp hf k0 hk0
      simp [hm] at this
  · rintro ⟨hkeys, hval⟩
    cases hf : findSello r with
    | none => unfold canonSello; rw [hf]
    | some k1 =>
      have hf' : (recKeys r).find? matchesSello = some k1 := hf
      have hk1mem : k1 ∈ recKeys r := List.mem_of_find?_eq_some hf'
      have hk1m : matchesSello k1 = true := List.find?_some hf'
      have hk1es : k1 = "Estado Sello" := by
        have hall := List.all_eq_true.mp hkeys k1 hk1mem
        simp [hk1m] at hall
        exact hall
      obtain ⟨v, hv⟩ := recGet_isSome_of_mem (hk1es ▸ hk1mem)
      have hvfix : jsToUpperS (jsTrim v) = v := by
        have h2 := hval
        unfold canonValOk at h2
        rw [hv] at h2
        simpa using h2
      rw [canonSello_eq_of_find hf, if_neg (by simp [hk1es]), hk1es, hv]
      simp only [Option.getD_some]
      rw [hvfix]
      exact recSet_self hv

/-- Witness for C7: a non-canonical seal label is canonicalized and
removed, and the step is the identity on an already-canonical record. -/
theorem C7_witness :
    recGet (canonSello [("estado del sello", "  activo")]) "Estado Sello" =
        some (jsToUpperS (jsTrim ((recGet [("estado del sello", "  activo")]
          "estado del sello").getD ""))) ∧
      recGet (canonSello [("estado del sello", "  activo")])
        "estado del sello" = none ∧
      canonSello [("Estado Sello", "ACTIVO")] = [("Estado Sello", "ACTIVO")] :=
  ⟨((C7_sello_canonical [("estado del sello", "  activo")] "estado del sello"
      (by decide)).1 (by decide)).1,
   ((C7_sello_canonical [("estado del sello", "  activo")] "estado del sello"
      (by decide)).1 (by decide)).2 (by decide),
   (C7_sello_canonical [("Estado Sello", "ACTIVO")] "Estado Sello"
      (by decide)).2.2 ⟨by decide, by decide⟩⟩

/-! ## Claim C9 -/

theorem stateAfter_spec (E : Nat) (hE : 1 ≤ E) :
    ∀ i, i ≤ E →
      stateAfter E i =
        if i = 0 then browserInit
        else if i < E then ⟨some 0, i, 1⟩ else ⟨none, 0, 1⟩ := by
  intro i
  induction i with
  | zero => intro _; simp [stateAfter]
  | succ n ih =>
    intro hle
    have hspec := ih (Nat.le_of_succ_le hle)
    by_cases h0 : n = 0
    · subst h0
      rcases Nat.lt_or_ge 1 E with h1 | h1
      · rw [if_neg (by omega), if_pos h1]
        simp [stateAfter, runTask, getBrowser, maybeRecycleBrowser, browserInit,
          Nat.not_le.mpr h1]
      · have hE1 : E = 1 := by omega
        subst hE1
        decide
    · have hnE : n < E := by omega
      rw [if_neg h0, if_pos hnE] at hspec
      rcases Nat.lt_or_ge (n + 1) E with h1 | h1
      · rw [if_neg (by omega), if_pos h1]
        simp [stateAfter, hspec, runTask, getBrowser, maybeRecycleBrowser,
          Nat.not_le.mpr h1]
      · rw [if_neg (by omega), if_neg (by omega)]
        simp [stateAfter, hspec, runTask, getBrowser, maybeRecycleBrowser, h1]

/-- Claim C9: the usage counter increments on every completed task; during
the first `restartEvery` tasks the same initially-launched browser (identity
0) is reused; after exactly `restartEvery` completed tasks the browser is
closed, the handle reset to unlaunched and the counter reset; and the next
task acquires a freshly launched session with a different identity. -/
theorem C9_browser_recycle (E : Nat) (hE : 1 ≤ E) :
    (∀ i, i < E → sessionOfTask E i = 0) ∧
    (∀ i, 1 ≤ i → i < E →
        (stateAfter E i).sharedBrowser = some 0 ∧ (stateAfter E i).useCount = i) ∧
    ((stateAfter E E).sharedBrowser = none ∧ (stateAfter E E).useCount = 0) ∧
    sessionOfTask E E = 1 := by
  have hspec := stateAfter_spec E hE
  refine ⟨?_, ?_, ?_, ?_⟩
  · intro i hi
    unfold sessionOfTask
    rw [hspec i (Nat.le_of_lt hi)]
    by_cases h0 : i = 0
    · rw [if_pos h0]
      rfl
    · rw [if_neg h0, if_pos hi]
      rfl
  · intro i h1 h2
    rw [hspec i (Nat.le_of_lt h2), if_neg (by omega), if_pos h2]
    exact ⟨rfl, rfl⟩
  · rw [hspec E le_rfl, if_neg (by omega), if_neg (by omega)]
    exact ⟨rfl, rfl⟩
  · unfold sessionOfTask
    rw [hspec E le_rfl, if_neg (by omega), if_neg (by omega)]
    rfl

/-- Witness for C9 with `restartEvery = 2`: tasks 0 and 1 use session 0,
after two completed tasks the browser is closed and the counter reset, and
task 2 runs on the fresh session 1. -/
theorem C9_witness :
    sessionOfTask 2 0 = 0 ∧ sessionOfTask 2 1 = 0 ∧
      (stateAfter 2 2).sharedBrowser = none ∧ (stateAfter 2 2).useCount = 0 ∧
      sessionOfTask 2 2 = 1 :=
  ⟨(C9_browser_recycle 2 (by decide)).1 0 (by decide),
   (C9_browser_recycle 2 (by decide)).1 1 (by decide),
   ((C9_browser_recycle 2 (by decide)).2.2.1).1,
   ((C9_browser_recycle 2 (by decide)).2.2.1).2,
   (C9_browser_recycle 2 (by decide)).2.2.2⟩

/-! ## Claim C4 -/

theorem jsToUpper_idem (c : Char) : jsToUpper (jsToUpper c) = jsToUpper c := by
  cases hf : upPairs.find? (fun p => p.1 == c) with
  | none =>
    have hu : jsToUpper c = c := by simp [jsToUpper, hf]
    rw [hu, hu]
  | some p =>
    have hu : jsToUpper c = p.2 := by simp [jsToUpper, hf]
    have hmem : p ∈ upPairs := List.mem_of_find?_eq_some hf
    rw [hu]
    fin_cases hmem <;> decide

theorem isWs_jsToUpper (c : Char) : isWs (jsToUpper c) = isWs c := by
  cases hf : upPairs.find? (fun p => p.1 == c) with
  | none =>
    have hu : jsToUpper c = c := by simp [jsToUpper, hf]
    rw [hu]
  | some p =>
    have hu : jsToUpper c = p.2 := by simp [jsToUpper, hf]
    have hmem : p ∈ upPairs := List.mem_of_find?_eq_some hf
    have hc : p.1 = c := by
      have := List.find?_some hf
      simpa using this
    rw [hu, ← hc]
    fin_cases hmem <;> decide

theorem dropWhile_map_upper (p : Char → Bool) (l : List Char) :
    (l.map jsToUpper).dropWhile p = (l.dropWhile (fun c => p (jsToUpper c))).map jsToUpper := by
  induction l with
  | nil => rfl
  | cons a t ih =>
    simp only [List.map_cons, List.dropWhile_cons]
    by_cases h : p (jsToUpper a)
    · simp [h, ih]
    · simp [h]

theorem dropWhile_isWs_map_upper (l : List Char) :
    (l.map jsToUpper).dropWhile isWs = (l.dropWhile isWs).map jsToUpper := by
  have hp : (fun c => isWs (jsToUpper c)) = isWs := funext isWs_jsToUpper
  rw [dropWhile_map_upper, hp]

theorem jsTrimL_map_upper (l : List Char) :
    jsTrimL (l.map jsToUpper) = (jsTrimL l).map jsToUpper := by
  unfold jsTrimL
  rw [dropWhile_isWs_map_upper, ← List.map_reverse, dropWhile_isWs_map_upper,
    ← List.map_reverse]

theorem map_upper_idem (l : List Char) :
    (l.map jsToUpper).map jsToUpper = l.map jsToUpper := by
  rw [List.map_map]
  have hc : jsToUpper ∘ jsToUpper = jsToUpper := by
    funext c
    exact jsToUpper_idem c
  rw [hc]

theorem dropWhile_dropWhile (p : Char → Bool) (l : List Char) :
    (l.dropWhile p).dropWhile p = l.dropWhile p := by
  induction l with
  | nil => rfl
  | cons a t ih =>
    by_cases h : p a
    · simp [List.dropWhile_cons, h, ih]
    · simp [List.dropWhile_cons, h]

theorem length_dropWhile_le' (p : Char → Bool) (l : List Char) :
    (l.dropWhile p).length ≤ l.length := by
  induction l with
  | nil => simp
  | cons a t ih =>
    rw [List.dropWhile_cons]
    by_cases h : p a
    · rw [if_pos h]; exact Nat.le_succ_of_le ih
    · rw [if_neg h]

theorem dropWhile_fix_of_append {p : Char → Bool} {l1 l2 : List Char}
    (h : (l1 ++ l2).dropWhile p = l1 ++ l2) : l1.dropWhile p = l1 := by
  cases l1 with
  | nil => rfl
  | cons a t =>
    have ha : p a = false := by
      cases hpa : p a with
      | false => rfl
      | true =>
        exfalso
        rw [List.cons_append, List.dropWhile_cons, if_pos hpa] at h
        have hlen := congrArg List.length h
        have hle : ((t ++ l2).dropWhile p).length ≤ (t ++ l2).length :=
          length_dropWhile_le' p (t ++ l2)
        simp only [List.length_cons] at hlen
        omega
    simp [List.dropWhile_cons, ha]

theorem exists_dropWhile_append (p : Char → Bool) (l : List Char) :
    ∃ w, l = w ++ l.dropWhile p := by
  induction l with
  | nil => exact ⟨[], rfl⟩
  | cons a t ih =>
    by_cases h : p a
    · obtain ⟨w, hw⟩ := ih
      refine ⟨a :: w, ?_⟩
      rw [List.dropWhile_cons, if_pos h, List.cons_append, ← hw]
    · exact ⟨[], by rw [List.dropWhile_cons, if_neg h, List.nil_append]⟩

theorem jsTrimL_idem (l : List Char) : jsTrimL (jsTrimL l) = jsTrimL l := by
  unfold jsTrimL
  set y := l.dropWhile isWs with hy
  set rz := y.reverse.dropWhile isWs with hrz
  have hyfix : y.dropWhile isWs = y := by rw [hy]; exact dropWhile_dropWhile isWs l
  have h2 : rz.dropWhile isWs = rz := by rw [hrz]; exact dropWhile_dropWhile isWs y.reverse
  have h1 : rz.reverse.dropWhile isWs = rz.reverse := by
    obtain ⟨w, hw⟩ := exists_dropWhile_append isWs y.reverse
    rw [← hrz] at hw
    have hysplit : y = rz.reverse ++ w.reverse := by
      have := congrArg List.reverse hw
      simpa using this
    have hfix2 : (rz.reverse ++ w.reverse).dropWhile isWs = rz.reverse ++ w.reverse := by
      rw [← hysplit]
      exact hyfix
    exact dropWhile_fix_of_append hfix2
  rw [h1, List.reverse_reverse, h2]

/-- Claim C4: the handler normalizes the identifier (upper-case then trim,
server.js line 303) before it is used anywhere, and `runScrape` fills the
page input with that exact string: `"  ab12cd "` and `"AB12CD"` produce the
identical automation input, and the normalization is idempotent, so any
already-normalized identifier is passed through unchanged. -/
theorem C4_input_normalized :
    automationInput "  ab12cd " = automationInput "AB12CD" ∧
      ∀ raw, automationInput (automationInput raw) = automationInput raw := by
  refine ⟨by decide, fun raw => ?_⟩
  have hmk : ∀ l : List Char, (String.mk l).toList = l := fun l => rfl
  simp only [automationInput, jsTrim, jsToUpperS, hmk]
  refine congrArg String.mk ?_
  rw [← jsTrimL_map_upper, map_upper_idem, jsTrimL_idem]

/-! ## Claim C6 -/

/-- The termination measure for draining the queue. -/
def measureQ (s : QState) : Nat := 2 * s.pending.length + s.activeT.length

theorem runNextQ_cases (N : Nat) (s : QState) :
    (runNextQ N s = s ∧ (s.pending = [] ∨ N ≤ s.activeT.length)) ∨
    (∃ t rest, s.pending = t :: rest ∧ s.activeT.length < N ∧
      runNextQ N s = ⟨rest, s.activeT ++ [t], s.settled, s.submitted,
        s.dispatched ++ [t]⟩) := by
  by_cases h : N ≤ s.activeT.length
  · left
    constructor
    · unfold runNextQ
      rw [if_pos h]
    · exact Or.inr h
  · cases hp : s.pending with
    | nil =>
      left
      constructor
      · unfold runNextQ
        rw [if_neg h, hp]
      · exact Or.inl rfl
    | cons t rest =>
      right
      refine ⟨t, rest, rfl, Nat.lt_of_not_le h, ?_⟩
      unfold runNextQ
      rw [if_neg h, hp]

theorem runNextQ_settled (N : Nat) (s : QState) :
    (runNextQ N s).settled = s.settled := by
  rcases runNextQ_cases N s with ⟨heq, _⟩ | ⟨t, rest, _, _, heq⟩ <;> rw [heq]

theorem runNextQ_submitted (N : Nat) (s : QState) :
    (runNextQ N s).submitted = s.submitted := by
  rcases runNextQ_cases N s with ⟨heq, _⟩ | ⟨t, rest, _, _, heq⟩ <;> rw [heq]

theorem finishQ_submitted (N : Nat) (s : QState) (id : Nat) (ok : Bool) :
    (finishQ N s id ok).submitted = s.submitted := by
  unfold finishQ
  rw [runNextQ_submitted]

theorem finishQ_settled (N : Nat) (s : QState) (id : Nat) (ok : Bool) :
    (finishQ N s id ok).settled = s.settled ++ [(id, ok)] := by
  unfold finishQ
  rw [runNextQ_settled]

theorem runNextQ_fields (N : Nat) (s1 s2 : QState) (hp : s1.pending = s2.pending)
    (ha : s1.activeT = s2.activeT) (hd : s1.dispatched = s2.dispatched) :
    (runNextQ N s1).pending = (runNextQ N s2).pending ∧
    (runNextQ N s1).activeT = (runNextQ N s2).activeT ∧
    (runNextQ N s1).dispatched = (runNextQ N s2).dispatched := by
  rcases runNextQ_cases N s1 with ⟨he1, hc1⟩ | ⟨t, rest, hp1, hl1, he1⟩
  · rcases runNextQ_cases N s2 with ⟨he2, hc2⟩ | ⟨t2, rest2, hp2, hl2, he2⟩
    · rw [he1, he2]
      exact ⟨hp, ha, hd⟩
    · exfalso
      rcases hc1 with hc | hc
      · rw [hp, hp2] at hc
        simp at hc
      · rw [ha] at hc
        omega
  · rcases runNextQ_cases N s2 with ⟨he2, hc2⟩ | ⟨t2, rest2, hp2, hl2, he2⟩
    · exfalso
      rcases hc2 with hc | hc
      · rw [← hp, hp1] at hc
        simp at hc
      · rw [← ha] at hc
        omega
    · rw [hp, hp2] at hp1
      injection hp1 with ht hr
      subst ht
      subst hr
      rw [he1, he2]
      exact ⟨rfl, by rw [ha], by rw [hd]⟩

theorem finishQ_indep (N : Nat) (s : QState) (id : Nat) (ok ok' : Bool) :
    (finishQ N s id ok).pending = (finishQ N s id ok').pending ∧
    (finishQ N s id ok).activeT = (finishQ N s id ok').activeT ∧
    (finishQ N s id ok).dispatched = (finishQ N s id ok').dispatched := by
  unfold finishQ
  exact runNextQ_fields N _ _ rfl rfl rfl

/-- The queue invariant: the bound on `active`, the FIFO-prefix property of
the dispatch history, saturation whenever the FIFO is non-empty, and the
multiset accounting of submitted tasks. -/
def Qinv (N : Nat) (s : QState) : Prop :=
  s.activeT.length ≤ N ∧
  s.submitted = s.dispatched ++ s.pending ∧
  (s.pending ≠ [] → s.activeT.length = N) ∧
  s.submitted.Perm (s.settled.map Prod.fst ++ s.activeT ++ s.pending)

theorem qinv_init (N : Nat) : Qinv N qInit :=
  ⟨by simp [qInit], by simp [qInit], by simp [qInit], by simp [qInit]⟩

theorem qinv_submit {N : Nat} {s : QState} (h : Qinv N s) (id : Nat) :
    Qinv N (submitQ N s id) := by
  obtain ⟨h1, h2, h3, h4⟩ := h
  unfold submitQ
  rcases runNextQ_cases N
      { s with pending := s.pending ++ [id], submitted := s.submitted ++ [id] } with
    ⟨heq, hcond⟩ | ⟨t, rest, hp, hlt, heq⟩
  · rw [heq]
    have hc : N ≤ s.activeT.length := by
      rcases hcond with hc | hc
      · exact absurd hc (by simp)
      · exact hc
    refine ⟨h1, ?_, fun _ => Nat.le_antisymm h1 hc, ?_⟩
    · show s.submitted ++ [id] = s.dispatched ++ (s.pending ++ [id])
      rw [h2, List.append_assoc]
    · show (s.submitted ++ [id]).Perm
        (s.settled.map Prod.fst ++ s.activeT ++ (s.pending ++ [id]))
      have := h4.append_right [id]
      simpa [List.append_assoc] using this
  · have hp' : s.pending ++ [id] = t :: rest := hp
    have hpnil : s.pending = [] := by
      by_contra hcon
      have hsat := h3 hcon
      have hlt' : s.activeT.length < N := hlt
      omega
    rw [hpnil, List.nil_append] at hp'
    injection hp' with hid hrest
    subst hid
    subst hrest
    rw [heq]
    refine ⟨?_, ?_, fun hcon => absurd rfl hcon, ?_⟩
    · show (s.activeT ++ [id]).length ≤ N
      simp only [List.length_append, List.length_singleton]
      have hlt' : s.activeT.length < N := hlt
      omega
    · show s.submitted ++ [id] = (s.dispatched ++ [id]) ++ []
      rw [List.append_nil, h2, hpnil, List.append_nil]
    · show (s.submitted ++ [id]).Perm
        (s.settled.map Prod.fst ++ (s.activeT ++ [id]) ++ [])
      rw [List.append_nil]
      have hperm := h4.append_right [id]
      rw [hpnil, List.append_nil] at hperm
      simpa [List.append_assoc] using hperm

theorem qinv_finish {N : Nat} {s : QState} (h : Qinv N s) (id : Nat) (ok : Bool)
    (hid : id ∈ s.activeT) : Qinv N (finishQ N s id ok) := by
  obtain ⟨h1, h2, h3, h4⟩ := h
  have hlen : (s.activeT.erase id).length = s.activeT.length - 1 :=
    List.length_erase_of_mem hid
  have hpos : 0 < s.activeT.length := List.length_pos_of_mem hid
  have hperm_active : s.activeT.Perm (id :: s.activeT.erase id) :=
    List.perm_cons_erase hid
  unfold finishQ
  rcases runNextQ_cases N
      { s with activeT := s.activeT.erase id, settled := s.settled ++ [(id, ok)] } with
    ⟨heq, hcond⟩ | ⟨t, rest, hp, hlt, heq⟩
  · rw [heq]
    refine ⟨?_, h2, ?_, ?_⟩
    · show (s.activeT.erase id).length ≤ N
      omega
    · intro hpend
      rcases hcond with hc | hc
      · exact absurd hc hpend
      · show (s.activeT.erase id).length = N
        have hc2 : N ≤ (s.activeT.erase id).length := hc
        omega
    · show s.submitted.Perm
        ((s.settled ++ [(id, ok)]).map Prod.fst ++ s.activeT.erase id ++ s.pending)
      have hperm := h4.trans
        ((hperm_active.append_left (s.settled.map Prod.fst)).append_right s.pending)
      simpa [List.append_assoc] using hperm
  · have hpend : s.pending ≠ [] := by
      have hpp : s.pending = t :: rest := hp
      rw [hpp]
      simp
    have hsat : s.activeT.length = N := h3 hpend
    have hlt2 : (s.activeT.erase id).length < N := hlt
    rw [heq]
    refine ⟨?_, ?_, ?_, ?_⟩
    · show (s.activeT.erase id ++ [t]).length ≤ N
      simp only [List.length_append, List.length_singleton]
      omega
    · show s.submitted = (s.dispatched ++ [t]) ++ rest
      have hpp : s.pending = t :: rest := hp
      rw [h2, hpp, List.append_assoc, List.singleton_append]
    · intro _
      show (s.activeT.erase id ++ [t]).length = N
      simp only [List.length_append, List.length_singleton]
      omega
    · show s.submitted.Perm
        ((s.settled ++ [(id, ok)]).map Prod.fst ++ (s.activeT.erase id ++ [t]) ++ rest)
      have hpp : s.pending = t :: rest := hp
      have hperm := h4.trans
        ((hperm_active.append_left (s.settled.map Prod.fst)).append_right s.pending)
      rw [hpp] at hperm
      refine hperm.trans ?_
      have heq2 : s.settled.map Prod.fst ++ (id :: s.activeT.erase id) ++ (t :: rest) =
          (s.settled ++ [(id, ok)]).map Prod.fst ++ (s.activeT.erase id ++ [t]) ++ rest := by
        simp [List.append_assoc]
      rw [heq2]

theorem qreach_inv {N : Nat} {s : QState} (h : QReach N s) : Qinv N s := by
  induction h with
  | init => exact qinv_init N
  | submit id _ ih => exact qinv_submit ih id
  | finish id ok _ hid ih => exact qinv_finish ih id ok hid

theorem finishQ_measure {N : Nat} {s : QState} {id : Nat}
    (hid : id ∈ s.activeT) (ok : Bool) :
    measureQ (finishQ N s id ok) < measureQ s := by
  have hlen : (s.activeT.erase id).length = s.activeT.length - 1 :=
    List.length_erase_of_mem hid
  have hpos : 0 < s.activeT.length := List.length_pos_of_mem hid
  unfold finishQ
  rcases runNextQ_cases N
      { s with activeT := s.activeT.erase id, settled := s.settled ++ [(id, ok)] } with
    ⟨heq, _⟩ | ⟨t, rest, hp, hlt, heq⟩
  · rw [heq]
    show 2 * s.pending.length + (s.activeT.erase id).length <
      2 * s.pending.length + s.activeT.length
    omega
  · rw [heq]
    have hpp : s.pending = t :: rest := hp
    show 2 * rest.length + (s.activeT.erase id ++ [t]).length <
      2 * s.pending.length + s.activeT.length
    rw [hpp]
    simp only [List.length_append, List.length_singleton, List.length_cons,
      List.length_nil]
    omega

theorem drain_aux (N : Nat) (hN : 1 ≤ N) :
    ∀ m s, QReach N s → measureQ s ≤ m →
      ∃ s', FinSeq N s s' ∧ s'.pending = [] ∧ s'.activeT = [] ∧
        s'.submitted = s.submitted ∧ (s'.settled.map Prod.fst).Perm s.submitted := by
  intro m
  induction m with
  | zero =>
    intro s hs hm
    have hinv := qreach_inv hs
    have hzero : s.pending.length = 0 ∧ s.activeT.length = 0 := by
      unfold measureQ at hm
      omega
    have hp : s.pending = [] := List.length_eq_zero.mp hzero.1
    have ha : s.activeT = [] := List.length_eq_zero.mp hzero.2
    refine ⟨s, FinSeq.refl s, hp, ha, rfl, ?_⟩
    have h4 := hinv.2.2.2
    rw [hp, ha] at h4
    simpa using h4.symm
  | succ m ih =>
    intro s hs hm
    cases ha : s.activeT with
    | nil =>
      have hinv := qreach_inv hs
      have hp : s.pending = [] := by
        by_contra hc
        have hsat := hinv.2.2.1 hc
        rw [ha] at hsat
        simp at hsat
        omega
      refine ⟨s, FinSeq.refl s, hp, ha, rfl, ?_⟩
      have h4 := hinv.2.2.2
      rw [hp, ha] at h4
      simpa using h4.symm
    | cons a tl =>
      have haid : a ∈ s.activeT := by
        rw [ha]
        exact List.mem_cons_self a tl
      have hreach' : QReach N (finishQ N s a true) := QReach.finish a true hs haid
      have hmeas : measureQ (finishQ N s a true) < measureQ s :=
        finishQ_measure haid true
      obtain ⟨s', hseq, hp', ha', hsub', hperm'⟩ :=
        ih (finishQ N s a true) hreach' (by omega)
      refine ⟨s', FinSeq.step a true haid hseq, hp', ha', ?_, ?_⟩
      · rw [hsub', finishQ_submitted]
      · rw [finishQ_submitted] at hsub' hperm'
        exact hperm'

/-- Claim C6: for the concurrency queue with bound `N`, every reachable
state has at most `N` active tasks; tasks are dispatched in FIFO submission
order (the dispatch history followed by the pending FIFO is exactly the
submission history); with `N ≥ 1`, from any reachable state a finite
sequence of task completions settles every submitted task (each completion
is always enabled, so every submitted task's promise eventually settles);
and a task's outcome is irrelevant to the scheduler — a completion settles
exactly that task, and failure produces the same pending/active/dispatch
evolution as success. -/
theorem C6_queue_bound (N : Nat) (s : QState) (hs : QReach N s) :
    s.activeT.length ≤ N ∧
    s.submitted = s.dispatched ++ s.pending ∧
    (1 ≤ N → ∃ s', FinSeq N s s' ∧ s'.pending = [] ∧ s'.activeT = [] ∧
      s'.submitted = s.submitted ∧ (s'.settled.map Prod.fst).Perm s.submitted) ∧
    (∀ id ok ok', (finishQ N s id ok).settled = s.settled ++ [(id, ok)] ∧
      (finishQ N s id ok).pending = (finishQ N s id ok').pending ∧
      (finishQ N s id ok).activeT = (finishQ N s id ok').activeT ∧
      (finishQ N s id ok).dispatched = (finishQ N s id ok').dispatched) := by
  have hinv := qreach_inv hs
  refine ⟨hinv.1, hinv.2.1, ?_, ?_⟩
  · intro hN
    exact drain_aux N hN (measureQ s) s hs le_rfl
  · intro id ok ok'
    exact ⟨finishQ_settled N s id ok, (finishQ_indep N s id ok ok').1,
      (finishQ_indep N s id ok ok').2.1, (finishQ_indep N s id ok ok').2.2⟩

/-- Witness for C6 at `N = 1`: two submissions and one completion — at most
one task is ever active, and the remaining work drains with every task
settled. -/
theorem C6_witness :
    (finishQ 1 (submitQ 1 (submitQ 1 qInit 0) 1) 0 true).activeT.length ≤ 1 ∧
      (∃ s', FinSeq 1 (finishQ 1 (submitQ 1 (submitQ 1 qInit 0) 1) 0 true) s' ∧
        s'.pending = [] ∧ s'.activeT = [] ∧
        s'.submitted = (finishQ 1 (submitQ 1 (submitQ 1 qInit 0) 1) 0 true).submitted ∧
        (s'.settled.map Prod.fst).Perm
          (finishQ 1 (submitQ 1 (submitQ 1 qInit 0) 1) 0 true).submitted) := by
  have hreach : QReach 1 (finishQ 1 (submitQ 1 (submitQ 1 qInit 0) 1) 0 true) :=
    QReach.finish 0 true (QReach.submit 1 (QReach.submit 0 QReach.init)) (by decide)
  exact ⟨(C6_queue_bound 1 _ hreach).1, (C6_queue_bound 1 _ hreach).2.2.1 (by decide)⟩

end Scraper
